import Mathlib

/-!
Verification development for the per-page PDF translation pipeline.

JavaScript strings are modelled as `List Char`.  The translation backend
(`fetch`) is modelled as an oracle giving the outcome of each attempt;
all functions are translated from the TypeScript source
(`services/aiService.ts`, the adapter module containing
`translateWithOpenAI` / `translateWithDeepLX`, and the `processPDF`
orchestrator in `App.tsx`).
-/

namespace PdfPipeline

/-! ## JavaScript string primitives -/

/-- The whitespace class used by JS `\s` and `String.prototype.trim`
(ASCII part: space, tab, LF, CR, VT, FF). -/
def isWs (c : Char) : Bool :=
  c == ' ' || c == '\t' || c == '\n' || c == '\r' ||
  c == Char.ofNat 11 || c == Char.ofNat 12

/-- Every character of the list is whitespace. -/
def wsOnly (l : List Char) : Bool := l.all isWs

/-- Drop leading whitespace (the left half of JS `trim`). -/
def dropLeadingWs (l : List Char) : List Char := l.dropWhile isWs

/-- Drop trailing whitespace (the right half of JS `trim`). -/
def dropTrailingWs (l : List Char) : List Char :=
  (l.reverse.dropWhile isWs).reverse

/-- JS `String.prototype.trim`. -/
def jsTrim (l : List Char) : List Char := dropTrailingWs (dropLeadingWs l)

/-- Lower-cased character code, for case-insensitive (`/i`) matching:
ASCII upper-case letters are mapped to their lower-case codes. -/
def lowerCode (c : Char) : Nat :=
  if 65 ≤ c.toNat && c.toNat ≤ 90 then c.toNat + 32 else c.toNat

/-- Case-insensitive character equality (JS regex `/i` flag). -/
def ciEqChar (a b : Char) : Bool := lowerCode a == lowerCode b

/-- Case-insensitive "starts with the literal `lit`" check. -/
def ciIsPrefixOf : List Char → List Char → Bool
  | [], _ => true
  | _ :: _, [] => false
  | a :: as, b :: bs => ciEqChar a b && ciIsPrefixOf as bs

/-- JS `String.prototype.endsWith` (case-sensitive). -/
def endsWithList (l sfx : List Char) : Bool := sfx.isSuffixOf l

/-! ## Configuration and error model (`types.ts`) -/

/-- Model of `ApiProvider` from `types.ts`: `'openai' | 'deeplx'`. -/
inductive ApiProvider where
  | openai
  | deeplx
deriving DecidableEq

/-- Model of `ApiConfig` from `types.ts`. -/
structure ApiConfig where
  provider : ApiProvider
  baseUrl : List Char
  apiKey : List Char
  modelName : List Char
deriving DecidableEq

/-- A thrown JS `Error`, with the optional `status` property the vision
adapter attaches to HTTP errors (`(error as any).status = status`). -/
structure JsError where
  msg : String
  status : Option Nat
deriving DecidableEq

/-! ## Endpoint resolver (`translateWithOpenAI`, "Smart URL Construction Logic") -/

def chatCompletionsSeg : List Char := "/chat/completions".toList

def v1Seg : List Char := "/v1".toList

def v1ChatCompletionsSeg : List Char := "/v1/chat/completions".toList

/-- The vision-provider endpoint resolution: trim the configured base URL,
drop one trailing slash, then append the completions path as needed. -/
def resolveVisionEndpoint (baseUrl : List Char) : List Char :=
  let url0 := jsTrim baseUrl
  let url := if endsWithList url0 ['/'] then url0.dropLast else url0
  if endsWithList url chatCompletionsSeg then url
  else if endsWithList url v1Seg then url ++ chatCompletionsSeg
  else url ++ v1ChatCompletionsSeg

/-! ## Retry/backoff engine

Both adapters run `for (attempt = 1; attempt <= MAX_RETRIES; attempt++)`
around one attempt of the network call.  An attempt's outcome is given by
an oracle `Nat → Except JsError (List Char)` indexed by attempt number.
The trace records the result, the number of attempts actually made and
the backoff sleeps (in ms) performed between consecutive attempts. -/

instance {ε α : Type} [DecidableEq ε] [DecidableEq α] : DecidableEq (Except ε α) := fun a b =>
  match a, b with
  | .ok x, .ok y => decidable_of_iff (x = y) (by simp)
  | .error x, .error y => decidable_of_iff (x = y) (by simp)
  | .ok _, .error _ => isFalse (by simp)
  | .error _, .ok _ => isFalse (by simp)

structure RetryTrace where
  result : Except JsError (List Char)
  attempts : Nat
  sleeps : List Nat
deriving DecidableEq

/-- One step of the retry loop.  `fuel` is the number of attempts still
allowed (initially `MAX_RETRIES`); `attempt` is the 1-based attempt
counter.  On a non-fatal failure with attempts remaining the loop sleeps
`delayOf attempt` ms and retries; after the final attempt, or on a
fatal failure, the error is (re-)raised. -/
def retryGo (isFatal : JsError → Bool) (delayOf : Nat → Nat)
    (oracle : Nat → Except JsError (List Char)) : Nat → Nat → RetryTrace
  | _, 0 => ⟨.error ⟨"", none⟩, 0, []⟩
  | attempt, fuel + 1 =>
    match oracle attempt with
    | .ok s => ⟨.ok s, 1, []⟩
    | .error e =>
      if isFatal e then ⟨.error e, 1, []⟩
      else if fuel == 0 then ⟨.error e, 1, []⟩
      else
        let r := retryGo isFatal delayOf oracle (attempt + 1) fuel
        ⟨r.result, r.attempts + 1, delayOf attempt :: r.sleeps⟩

/-- Run the retry loop from attempt 1 with `maxRetries` attempts. -/
def runWithRetry (isFatal : JsError → Bool) (delayOf : Nat → Nat)
    (maxRetries : Nat) (oracle : Nat → Except JsError (List Char)) : RetryTrace :=
  retryGo isFatal delayOf oracle 1 maxRetries

/-- The vision adapter's fatal classification:
`status === 401 || status === 403 || status === 404 || status === 400`. -/
def isFatalOpenAIError (e : JsError) : Bool :=
  match e.status with
  | some s => s == 401 || s == 403 || s == 404 || s == 400
  | none => false

/-- Vision-adapter backoff: `1000 * Math.pow(2, attempt - 1)`. -/
def openaiBackoffMs (attempt : Nat) : Nat := 1000 * 2 ^ (attempt - 1)

/-- DeepLX-adapter backoff: `1000 * attempt`. -/
def deeplxBackoffMs (attempt : Nat) : Nat := 1000 * attempt

/-- The vision adapter's retry loop (`MAX_RETRIES = 3`). -/
def openaiRetryRun (oracle : Nat → Except JsError (List Char)) : RetryTrace :=
  runWithRetry isFatalOpenAIError openaiBackoffMs 3 oracle

/-- The DeepLX adapter's retry loop (`MAX_RETRIES = 3`); its catch block
never rethrows early, so no error is classified fatal. -/
def deeplxRetryRun (oracle : Nat → Except JsError (List Char)) : RetryTrace :=
  runWithRetry (fun _ => false) deeplxBackoffMs 3 oracle

/-! ## Vision-response normalization

`text.replace(/^` ```html `\s*/i, '').replace(/^` ``` `\s*/i, '')
.replace(/` ``` `\s*$/i, '').trim()` followed by un-escaping the
allowlisted inline tags. -/

def fenceHtmlLit : List Char := "```html".toList

def fenceLit : List Char := "```".toList

/-- One anchored prefix replace `/^<lit>\s*/i → ''`: if the string starts
with `lit` (case-insensitively), drop it and the following whitespace. -/
def stripPrefixFenceWith (lit l : List Char) : List Char :=
  if ciIsPrefixOf lit l then (l.drop lit.length).dropWhile isWs else l

/-- The replace `/` ``` `\s*$/i → ''`: remove, at the leftmost position
where the rest of the string is a fence marker followed only by
whitespace, that whole tail. -/
def stripSuffixFence : List Char → List Char
  | [] => []
  | c :: rest =>
    if fenceLit.isPrefixOf (c :: rest) && wsOnly ((c :: rest).drop 3) then []
    else c :: stripSuffixFence rest

/-- The full code-fence cleanup line of the vision adapter. -/
def stripCodeFences (l : List Char) : List Char :=
  jsTrim (stripSuffixFence (stripPrefixFenceWith fenceLit (stripPrefixFenceWith fenceHtmlLit l)))

def ltLit : List Char := "&lt;".toList

def ltSlashLit : List Char := "&lt;/".toList

def gtLit : List Char := "&gt;".toList

def htmlLit : List Char := "html".toList

/-- The allowlisted inline tags, in the alternation order of the regex
`(sup|sub|b|i|strong|em)`. -/
def allowedTags : List (List Char) := ["sup".toList, "sub".toList, "b".toList,
  "i".toList, "strong".toList, "em".toList]

/-- Try the tag alternatives in order against `rest`; on a match return
the captured tag characters (as they appear in the input) and the number
of characters consumed (`tag` plus the 4 of `&gt;`). -/
def tryTags : List (List Char) → List Char → Option (List Char × Nat)
  | [], _ => none
  | t :: ts, rest =>
    if ciIsPrefixOf (t ++ gtLit) rest then some (rest.take t.length, t.length + 4)
    else tryTags ts rest

/-- Match the escaped-tag pattern `pre ++ tag ++ "&gt;"` (with `pre`
either `"&lt;"` or `"&lt;/"`) at the head of `l`, case-insensitively. -/
def matchEscAt (pre l : List Char) : Option (List Char × Nat) :=
  if ciIsPrefixOf pre l then
    match tryTags allowedTags (l.drop pre.length) with
    | some (cap, n) => some (cap, pre.length + n)
    | none => none
  else none

/-- Fuel-indexed global replace `/&lt;(sup|sub|b|i|strong|em)&gt;/gi →
'<$1>'`; with fuel at least the string length this is the JS behavior. -/
def unescOpenF : Nat → List Char → List Char
  | 0, l => l
  | fuel + 1, l =>
    match l with
    | [] => []
    | c :: rest =>
      match matchEscAt ltLit (c :: rest) with
      | some (cap, n) => '<' :: (cap ++ '>' :: unescOpenF fuel ((c :: rest).drop n))
      | none => c :: unescOpenF fuel rest

def unescOpen (l : List Char) : List Char := unescOpenF l.length l

/-- Fuel-indexed global replace `/&lt;\/(sup|sub|b|i|strong|em)&gt;/gi →
'</$1>'`. -/
def unescCloseF : Nat → List Char → List Char
  | 0, l => l
  | fuel + 1, l =>
    match l with
    | [] => []
    | c :: rest =>
      match matchEscAt ltSlashLit (c :: rest) with
      | some (cap, n) => '<' :: '/' :: (cap ++ '>' :: unescCloseF fuel ((c :: rest).drop n))
      | none => c :: unescCloseF fuel rest

def unescClose (l : List Char) : List Char := unescCloseF l.length l

/-- The two un-escaping replaces, applied in source order. -/
def unescapeInlineTags (l : List Char) : List Char := unescClose (unescOpen l)

/-- Whether some position of `l` matches the escaped-tag pattern with
static part `pre`. -/
def hasEscAt (pre : List Char) : List Char → Bool
  | [] => false
  | c :: rest => (matchEscAt pre (c :: rest)).isSome || hasEscAt pre rest

/-- The vision adapter's full success-path normalization. -/
def normalizeVisionHtml (l : List Char) : List Char :=
  unescapeInlineTags (stripCodeFences l)

/-! ## Vision adapter (`translateWithOpenAI`) -/

def apiKeyMissingMsg : String := "API Key is missing. Please configure it in settings."

def dataColonLit : List Char := "data:".toList

def jpegDataUrlPre : List Char := "data:image/jpeg;base64,".toList

structure VisionCallTrace where
  result : Except JsError (List Char)
  endpointUsed : Option (List Char)
  imageUrl : Option (List Char)
  attempts : Nat
  sleeps : List Nat
deriving DecidableEq

/-- Model of `translateWithOpenAI` from the adapter module: validate the key,
build the image data URL, resolve the endpoint, then run the retry loop
whose per-attempt network outcome is given by `oracle` (the raw
`choices[0].message.content` text on success). -/
def translateWithOpenAI (base64Image : List Char) (config : ApiConfig)
    (oracle : Nat → Except JsError (List Char)) : VisionCallTrace :=
  if config.apiKey == ([] : List Char) then
    ⟨.error ⟨apiKeyMissingMsg, none⟩, none, none, 0, []⟩
  else
    let imageUrl := if dataColonLit.isPrefixOf base64Image then base64Image
      else jpegDataUrlPre ++ base64Image
    let endpoint := resolveVisionEndpoint config.baseUrl
    let r := openaiRetryRun (fun k => (oracle k).map normalizeVisionHtml)
    ⟨r.result, some endpoint, some imageUrl, r.attempts, r.sleeps⟩

/-! ## DeepLX adapter (`translateWithDeepLX`) -/

/-- The JSON body of a DeepLX response; `none` models an absent field. -/
structure DeepLXResponse where
  data : Option (List Char)
  text : Option (List Char)
  alternatives : Option (List (List Char))
deriving DecidableEq

structure DeepLXHttpResponse where
  ok : Bool
  status : Nat
  statusText : String
  body : DeepLXResponse
deriving DecidableEq

/-- JS `a || b` restricted to string-or-absent values: an absent or
empty string is falsy. -/
def jsOrStr (a b : Option (List Char)) : Option (List Char) :=
  match a with
  | some l => if l == [] then b else some l
  | none => b

/-- The chain `data.data || data.text || (data.alternatives && data.alternatives[0])`. -/
def deeplxTranslatedTextVal (d : DeepLXResponse) : Option (List Char) :=
  jsOrStr d.data (jsOrStr d.text
    (match d.alternatives with
     | none => none
     | some l => l.head?))

def invalidFormatMsg : String := "Invalid response format from DeepLX"

def deeplxWrapPre : List Char :=
  ("\n        <div class=\"deeplx-translation\" style=\"font-family: sans-serif; line-height: 1.6;\">\n          <h3 style=\"color: #666; border-bottom: 1px solid #eee; padding-bottom: 8px; margin-bottom: 16px; font-size: 0.9em;\">\n            Translated by DeepLX (Text Only)\n          </h3>\n          <p>").toList

def deeplxWrapPost : List Char := ("</p>\n        </div>\n      ").toList

def brLit : List Char := "<br/>".toList

/-- The template `<p>${translatedText.replace(/\n/g, '<br/>')}</p>` inside the
wrapper div. -/
def wrapDeepLXHtml (t : List Char) : List Char :=
  deeplxWrapPre ++ (t.flatMap fun c => if c == '\n' then brLit else [c]) ++ deeplxWrapPost

/-- The post-`json()` part of a DeepLX attempt: extract the translated
text, throw on a falsy result, wrap in the viewer HTML. -/
def deeplxParseBody (d : DeepLXResponse) : Except JsError (List Char) :=
  match deeplxTranslatedTextVal d with
  | none => .error ⟨invalidFormatMsg, none⟩
  | some t => if t == [] then .error ⟨invalidFormatMsg, none⟩ else .ok (wrapDeepLXHtml t)

/-- One full DeepLX attempt given the fetch outcome: a network error is
re-thrown, a non-OK status throws `DeepLX Error <status>`, otherwise the
body is parsed. -/
def deeplxAttemptBody (resp : Except JsError DeepLXHttpResponse) : Except JsError (List Char) :=
  match resp with
  | .error e => .error e
  | .ok r =>
    if !r.ok then .error ⟨"DeepLX Error " ++ toString r.status ++ ": " ++ r.statusText, none⟩
    else deeplxParseBody r.body

def noContentHtml : List Char := "<p><i>(No text content found on this page)</i></p>".toList

def defaultDeepLXEndpoint : List Char := "http://localhost:1188/translate".toList

structure TextCallTrace where
  result : Except JsError (List Char)
  endpointUsed : Option (List Char)
  attempts : Nat
  sleeps : List Nat
deriving DecidableEq

/-- Model of `translateWithDeepLX`: short-circuit on empty/whitespace-only text
with the no-content placeholder (no network attempt), otherwise run the
retry loop against the configured (or default) endpoint. -/
def translateWithDeepLX (text : List Char) (config : ApiConfig)
    (oracle : Nat → Except JsError DeepLXHttpResponse) : TextCallTrace :=
  if text == ([] : List Char) || (jsTrim text).length == 0 then
    ⟨.ok noContentHtml, none, 0, []⟩
  else
    let endpoint := if config.baseUrl == ([] : List Char) then defaultDeepLXEndpoint
      else config.baseUrl
    let r := deeplxRetryRun (fun k => deeplxAttemptBody (oracle k))
    ⟨r.result, some endpoint, r.attempts, r.sleeps⟩

/-- The provider dispatch of `translatePageContent`. -/
def translatePageContent (base64Image : List Char) (textData : Option (List Char))
    (config : ApiConfig) (visionOracle : Nat → Except JsError (List Char))
    (textOracle : Nat → Except JsError DeepLXHttpResponse) : Except JsError (List Char) :=
  match config.provider with
  | .deeplx => (translateWithDeepLX (textData.getD []) config textOracle).result
  | .openai => (translateWithOpenAI base64Image config visionOracle).result

/-! ## Page pipeline orchestrator (`processPDF` in `App.tsx`)

The document is processed strictly sequentially; the session state is
observable at every suspension point (`await`).  `runPages` returns the
list of states visible at the suspension points from the first page
onwards, together with the state after the loop.  Per-page translation
outcomes are given by `tr : Nat → Except String String` (0-based page
index), rendered images by `renderImg : Nat → String`. -/

/-- Model of `AppState` from `types.ts`. -/
inductive DocAppState where
  | idle
  | processing
  | completed
  | error
deriving DecidableEq

/-- The `status` field of `TranslatedPage`. -/
inductive PageStatus where
  | pending
  | translating
  | completed
  | error
deriving DecidableEq

/-- Model of `TranslatedPage` from `types.ts`. -/
structure TranslatedPage where
  pageNumber : Nat
  originalImage : String
  translatedHtml : String
  status : PageStatus
  errorMessage : Option String
deriving DecidableEq

structure Progress where
  current : Nat
  total : Nat
deriving DecidableEq

/-- The whole observable session state: app state, pages, progress. -/
structure Session where
  appState : DocAppState
  pages : List TranslatedPage
  progress : Progress
deriving DecidableEq

/-- The initializer `Array.from({length: totalPages}, (_, i) => ({pageNumber: i+1, ...,
status: 'pending'}))`. -/
def initialPages (total : Nat) : List TranslatedPage :=
  (List.range total).map fun i => ⟨i + 1, "", "", .pending, none⟩

/-- The session right after a successful document load: `PROCESSING`,
`progress = {current: 0, total}`, all pages `pending`. -/
def sessionInit (total : Nat) : Session :=
  ⟨.processing, initialPages total, ⟨0, total⟩⟩

/-- The state update before page `i`'s translation call: attach the
rendered image and set the page `translating`. -/
def stepTranslating (s : Session) (i : Nat) (img : String) : Session :=
  { s with pages := s.pages.modify (fun p => { p with originalImage := img, status := .translating }) i }

/-- The state updates after page `i`'s translation settles: record the
outcome on that page and set `progress.current = i + 1`. -/
def stepDone (s : Session) (i : Nat) (out : Except String String) : Session :=
  { s with
    pages := s.pages.modify (fun p =>
      match out with
      | .ok html => { p with translatedHtml := html, status := .completed }
      | .error m => { p with status := .error, errorMessage := some m }) i
    progress := { s.progress with current := i + 1 } }

/-- The per-page loop from page index `i` with `remaining` pages left:
returns the session states observable at the suspension points inside
the loop, and the state when the loop exits. -/
def runPages (renderImg : Nat → String) (tr : Nat → Except String String) :
    Nat → Nat → Session → List Session × Session
  | _, 0, s => ([], s)
  | i, remaining + 1, s =>
    let t := stepTranslating s i (renderImg i)
    let d := stepDone t i (tr i)
    let rest := runPages renderImg tr (i + 1) remaining d
    (t :: d :: rest.1, rest.2)

/-- A successful-load run of `processPDF` on a document of `total`
pages: the observable session snapshots (starting with the initialized
session) and the terminal session, whose app state is set to
`COMPLETED` after the loop. -/
def processPDFRun (total : Nat) (renderImg : Nat → String)
    (tr : Nat → Except String String) : List Session × Session :=
  let s0 := sessionInit total
  let r := runPages renderImg tr 0 total s0
  (s0 :: r.1, { r.2 with appState := .completed })

/-- The snapshots observable during the run. -/
def runSnapshots (total : Nat) (renderImg : Nat → String)
    (tr : Nat → Except String String) : List Session :=
  (processPDFRun total renderImg tr).1

/-- The terminal session of the run. -/
def finalSession (total : Nat) (renderImg : Nat → String)
    (tr : Nat → Except String String) : Session :=
  (processPDFRun total renderImg tr).2

/-- A page status is terminal iff it is `completed` or `error` (the
source's name for the spec's `failed`). -/
def PageStatus.isTerminal : PageStatus → Bool
  | .completed => true
  | .error => true
  | _ => false

/-- The number of pages whose status is neither `pending` nor
`translating`. -/
def terminalCount (pages : List TranslatedPage) : Nat :=
  (pages.filter fun p => p.status.isTerminal).length

/-- The escaped form of an opening inline tag. -/
def escOpen (t : List Char) : List Char := ltLit ++ t ++ gtLit

/-- The escaped form of a closing inline tag. -/
def escClose (t : List Char) : List Char := ltSlashLit ++ t ++ gtLit

/-- The spec's description of the DeepLX extraction: the candidate
fields, in order — the primary data field, the fallback text field, the
first element of the alternatives list (an absent field contributes an
empty candidate). -/
def specExtractCandidates (d : DeepLXResponse) : List (List Char) :=
  [d.data.getD [], d.text.getD [], (d.alternatives.getD []).head?.getD []]

/-- The spec's extraction rule: the first non-empty candidate. -/
def specFirstNonEmpty (d : DeepLXResponse) : Option (List Char) :=
  (specExtractCandidates d).find? fun l => !l.isEmpty

instance : Inhabited TranslatedPage := ⟨⟨0, "", "", .pending, none⟩⟩

/-! ## Helper lemmas -/

lemma jsTrim_eq_nil_of_all_ws {l : List Char} (h : ∀ c ∈ l, isWs c = true) :
    jsTrim l = [] := by
  have h1 : dropLeadingWs l = [] := List.dropWhile_eq_nil_iff.mpr h
  simp [jsTrim, h1, dropTrailingWs]

/-! ## Claims -/

/-- Claim C2: in the vision adapter, an attempt failing with HTTP status
400/401/403/404 raises immediately after exactly one attempt with no
backoff sleep (and a fatal failure on a later attempt stops the loop
there); a retryable failure is retried up to 3 attempts with sleeps of
`1000*2^(k-1)` ms between attempts `k` and `k+1`; when all 3 attempts
fail retryably the last observed error is re-raised. -/
theorem vision_retry_policy :
    (∀ m, isFatalOpenAIError ⟨m, some 400⟩ = true ∧ isFatalOpenAIError ⟨m, some 401⟩ = true ∧
      isFatalOpenAIError ⟨m, some 403⟩ = true ∧ isFatalOpenAIError ⟨m, some 404⟩ = true)
  ∧ (∀ oracle e, oracle 1 = .error e → isFatalOpenAIError e = true →
      openaiRetryRun oracle = ⟨.error e, 1, []⟩)
  ∧ (∀ oracle e1 e2, oracle 1 = .error e1 → oracle 2 = .error e2 →
      isFatalOpenAIError e1 = false → isFatalOpenAIError e2 = true →
      openaiRetryRun oracle = ⟨.error e2, 2, [1000 * 2 ^ 0]⟩)
  ∧ (∀ oracle e1 e2 e3, oracle 1 = .error e1 → oracle 2 = .error e2 → oracle 3 = .error e3 →
      isFatalOpenAIError e1 = false → isFatalOpenAIError e2 = false →
      isFatalOpenAIError e3 = false →
      openaiRetryRun oracle = ⟨.error e3, 3, [1000 * 2 ^ 0, 1000 * 2 ^ 1]⟩) := by
  refine ⟨fun m => by simp [isFatalOpenAIError], ?_, ?_, ?_⟩
  · intro oracle e h1 hf
    simp [openaiRetryRun, runWithRetry, retryGo, h1, hf]
  · intro oracle e1 e2 h1 h2 hf1 hf2
    simp [openaiRetryRun, runWithRetry, retryGo, h1, h2, hf1, hf2, openaiBackoffMs]
  · intro oracle e1 e2 e3 h1 h2 h3 hf1 hf2 hf3
    simp [openaiRetryRun, runWithRetry, retryGo, h1, h2, h3, hf1, hf2, hf3, openaiBackoffMs]

/-- Witness for `vision_retry_policy` at concrete oracles: a constant
HTTP-401 failure stops after one attempt; a constant retryable network
failure exhausts 3 attempts and sleeps 1000 ms then 2000 ms. -/
theorem vision_retry_policy_witness :
    openaiRetryRun (fun _ => .error ⟨"API Error 401: bad key", some 401⟩) =
      ⟨.error ⟨"API Error 401: bad key", some 401⟩, 1, []⟩
  ∧ openaiRetryRun (fun _ => .error ⟨"network down", none⟩) =
      ⟨.error ⟨"network down", none⟩, 3, [1000 * 2 ^ 0, 1000 * 2 ^ 1]⟩ :=
  ⟨vision_retry_policy.2.1 _ _ rfl (by decide),
   vision_retry_policy.2.2.2 _ _ _ _ rfl rfl rfl (by decide) (by decide) (by decide)⟩

/-- Claim C3: the DeepLX retry loop also makes up to 3 attempts and its
observable backoff sleeps equal `1000*2^(k-1)` ms after attempts `k = 1`
and `k = 2` (the only attempts followed by a sleep when the attempt
bound is 3); moreover on any oracle whose failures the vision adapter
would classify retryable, the DeepLX loop's trace is identical to the
vision loop's trace, so the two adapters differ only in the
fatal-vs-retryable classification. -/
theorem deeplx_same_retry_policy :
    (∀ oracle e1 e2 e3, oracle 1 = .error e1 → oracle 2 = .error e2 → oracle 3 = .error e3 →
      deeplxRetryRun oracle = ⟨.error e3, 3, [1000 * 2 ^ 0, 1000 * 2 ^ 1]⟩)
  ∧ (∀ oracle, (∀ k e, oracle k = .error e → isFatalOpenAIError e = false) →
      deeplxRetryRun oracle = openaiRetryRun oracle) := by
  constructor
  · intro oracle e1 e2 e3 h1 h2 h3
    simp [deeplxRetryRun, runWithRetry, retryGo, h1, h2, h3, deeplxBackoffMs]
  · intro oracle h
    unfold deeplxRetryRun openaiRetryRun runWithRetry
    rcases h1 : oracle 1 with e1 | s1
    · have hf1 := h 1 e1 h1
      rcases h2 : oracle 2 with e2 | s2
      · have hf2 := h 2 e2 h2
        rcases h3 : oracle 3 with e3 | s3
        · have hf3 := h 3 e3 h3
          simp [retryGo, h1, h2, h3, hf1, hf2, hf3, deeplxBackoffMs, openaiBackoffMs]
        · simp [retryGo, h1, h2, h3, hf1, hf2, deeplxBackoffMs, openaiBackoffMs]
      · simp [retryGo, h1, h2, hf1, deeplxBackoffMs, openaiBackoffMs]
    · simp [retryGo, h1]

/-- Witness for `deeplx_same_retry_policy`: a constant DeepLX failure
exhausts 3 attempts with sleeps 1000 ms and 2000 ms, and yields the same
trace as the vision loop on the same oracle. -/
theorem deeplx_same_retry_policy_witness :
    deeplxRetryRun (fun _ => .error ⟨"DeepLX Error 500: oops", none⟩) =
      ⟨.error ⟨"DeepLX Error 500: oops", none⟩, 3, [1000 * 2 ^ 0, 1000 * 2 ^ 1]⟩
  ∧ deeplxRetryRun (fun _ => .error ⟨"DeepLX Error 500: oops", none⟩) =
      openaiRetryRun (fun _ => .error ⟨"DeepLX Error 500: oops", none⟩) :=
  ⟨deeplx_same_retry_policy.1 _ _ _ _ rfl rfl rfl,
   deeplx_same_retry_policy.2 _ (fun _ e he => by cases he; decide)⟩

/-- Claim C10: with an empty `apiKey` the vision adapter fails with the
"API Key is missing" error before resolving any endpoint and before any
network attempt (0 attempts, no sleeps), for every image payload. -/
theorem vision_missing_api_key :
    ∀ (base64Image : List Char) (config : ApiConfig) (oracle : Nat → Except JsError (List Char)),
      config.apiKey = [] →
      translateWithOpenAI base64Image config oracle =
        ⟨.error ⟨apiKeyMissingMsg, none⟩, none, none, 0, []⟩ := by
  intro img config oracle h
  simp [translateWithOpenAI, h]

/-- Witness for `vision_missing_api_key` at a concrete config with an
empty key. -/
theorem vision_missing_api_key_witness :
    translateWithOpenAI "imgdata".toList
      ⟨.openai, "https://api.openai.com/v1".toList, [], "gpt-4o".toList⟩
      (fun _ => .ok "<p>ok</p>".toList) =
      ⟨.error ⟨apiKeyMissingMsg, none⟩, none, none, 0, []⟩ :=
  vision_missing_api_key _ _ _ rfl

/-- Claim C6: on empty or whitespace-only input text the DeepLX adapter
returns the fixed no-content HTML placeholder successfully, touching no
endpoint, making zero attempts and sleeping zero times. -/
theorem deeplx_empty_text_short_circuit :
    ∀ (text : List Char) (config : ApiConfig) (oracle : Nat → Except JsError DeepLXHttpResponse),
      (∀ c ∈ text, isWs c = true) →
      translateWithDeepLX text config oracle = ⟨.ok noContentHtml, none, 0, []⟩ := by
  intro text config oracle h
  have ht : jsTrim text = [] := jsTrim_eq_nil_of_all_ws h
  simp [translateWithDeepLX, ht]

/-- Witness for `deeplx_empty_text_short_circuit` on a whitespace-only
input. -/
theorem deeplx_empty_text_short_circuit_witness :
    translateWithDeepLX "  \n\t ".toList
      ⟨.deeplx, "http://localhost:1188/translate".toList, [], []⟩
      (fun _ => .error ⟨"unused", none⟩) = ⟨.ok noContentHtml, none, 0, []⟩ :=
  deeplx_empty_text_short_circuit _ _ _ (by decide)

/-- Claim C7: the DeepLX response handling returns (wrapped) the first
non-empty of the primary data field, the fallback text field and the
first element of the alternatives list, and fails with the
"Invalid response format" error when none of the three is present and
non-empty. -/
theorem deeplx_extraction_first_non_empty :
    ∀ d : DeepLXResponse,
      deeplxParseBody d =
        match specFirstNonEmpty d with
        | some t => .ok (wrapDeepLXHtml t)
        | none => .error ⟨invalidFormatMsg, none⟩ := by
  rintro ⟨da, te, al⟩
  rcases da with _ | (_ | ⟨c, cs⟩) <;>
    rcases te with _ | (_ | ⟨e, es⟩) <;>
      rcases al with _ | (_ | ⟨(_ | ⟨y, ys⟩), xs⟩) <;>
        simp [deeplxParseBody, deeplxTranslatedTextVal, jsOrStr, specFirstNonEmpty,
          specExtractCandidates, List.find?]

lemma terminalCount_cons (p : TranslatedPage) (ps : List TranslatedPage) :
    terminalCount (p :: ps) =
      (if p.status.isTerminal then 1 else 0) + terminalCount ps := by
  simp [terminalCount, List.filter_cons]
  split <;> simp [Nat.add_comm]

lemma terminalCount_set (l : List TranslatedPage) :
    ∀ (i : Nat) (p q : TranslatedPage), l[i]? = some p →
      terminalCount (l.set i q) + (if p.status.isTerminal then 1 else 0) =
        terminalCount l + (if q.status.isTerminal then 1 else 0) := by
  induction l with
  | nil => intro i p q h; simp at h
  | cons a t ih =>
    intro i p q h
    cases i with
    | zero =>
      simp only [List.getElem?_cons_zero, Option.some.injEq] at h
      subst h
      simp [terminalCount_cons]
      omega
    | succ n =>
      simp only [List.getElem?_cons_succ] at h
      have := ih n p q h
      simp [terminalCount_cons]
      omega

lemma terminalCount_modify (f : TranslatedPage → TranslatedPage)
    (l : List TranslatedPage) (i : Nat) (p : TranslatedPage) (h : l[i]? = some p) :
    terminalCount (l.modify f i) + (if p.status.isTerminal then 1 else 0) =
      terminalCount l + (if (f p).status.isTerminal then 1 else 0) := by
  rw [List.modify_eq_set]
  have hg : l[i]?.getD default = p := by simp [h]
  rw [hg]
  exact terminalCount_set l i p (f p) h

lemma runPages_invariant (renderImg : Nat → String) (tr : Nat → Except String String)
    (N : Nat) :
    ∀ (m i : Nat) (s : Session),
      i + m = N →
      s.progress.current = i →
      s.progress.total = N →
      s.pages.length = N →
      terminalCount s.pages = i →
      (∀ (j : Nat) (p : TranslatedPage), i ≤ j → s.pages[j]? = some p →
        p.status = PageStatus.pending) →
      (∀ (j : Nat) (p : TranslatedPage), j < i → s.pages[j]? = some p →
        p.status = PageStatus.completed ∨ p.status = PageStatus.error) →
      (∀ x ∈ (runPages renderImg tr i m s).1,
         x.progress.current = terminalCount x.pages ∧ x.progress.total = N)
      ∧ List.Chain' (fun a b => a.progress.current ≤ b.progress.current)
          (s :: (runPages renderImg tr i m s).1)
      ∧ (runPages renderImg tr i m s).2.progress.current = N
      ∧ (runPages renderImg tr i m s).2.progress.total = N
      ∧ (runPages renderImg tr i m s).2.pages.length = N
      ∧ (∀ (j : Nat) (p : TranslatedPage), (runPages renderImg tr i m s).2.pages[j]? = some p →
           p.status = PageStatus.completed ∨ p.status = PageStatus.error) := by
  intro m
  induction m with
  | zero =>
    intro i s hN hcur htot hlen hcount hpend hterm
    refine ⟨by simp [runPages], by simp [runPages], ?_, ?_, ?_, ?_⟩
    · simp [runPages]; omega
    · simpa [runPages] using htot
    · simpa [runPages] using hlen
    · intro j p hj
      simp only [runPages] at hj
      by_cases hlt : j < i
      · exact hterm j p hlt hj
      · exfalso
        have hnone : s.pages[j]? = none := List.getElem?_eq_none (by omega)
        simp [hnone] at hj
  | succ m ih =>
    intro i s hN hcur htot hlen hcount hpend hterm
    have hi : i < N := by omega
    rcases hp0 : s.pages[i]? with _ | p0
    · exfalso
      rw [List.getElem?_eq_none_iff] at hp0
      omega
    have hp0pending : p0.status = PageStatus.pending := hpend i p0 (Nat.le_refl i) hp0
    set t := stepTranslating s i (renderImg i) with hT
    set d := stepDone t i (tr i) with hD
    have hstep : runPages renderImg tr i (m + 1) s =
        (t :: d :: (runPages renderImg tr (i + 1) m d).1,
         (runPages renderImg tr (i + 1) m d).2) := rfl
    set fT : TranslatedPage → TranslatedPage :=
      fun p => { p with originalImage := renderImg i, status := PageStatus.translating } with hfT
    have ht_pages : t.pages = s.pages.modify fT i := rfl
    have ht_prog : t.progress = s.progress := rfl
    have ht_i : t.pages[i]? = some (fT p0) := by
      rw [ht_pages, List.getElem?_modify, hp0]
      simp
    have ht_ne : ∀ j : Nat, i ≠ j → t.pages[j]? = s.pages[j]? := by
      intro j hj
      rw [ht_pages, List.getElem?_modify]
      cases s.pages[j]? <;> simp [hj]
    have ht_len : t.pages.length = N := by
      rw [ht_pages, List.length_modify]
      exact hlen
    have ht_count : terminalCount t.pages = i := by
      have h2 := terminalCount_modify fT s.pages i p0 hp0
      simp [hfT, PageStatus.isTerminal, hp0pending] at h2
      rw [← ht_pages] at h2
      omega
    set fD : TranslatedPage → TranslatedPage :=
      fun p => match tr i with
        | .ok html => { p with translatedHtml := html, status := PageStatus.completed }
        | .error msg => { p with status := PageStatus.error, errorMessage := some msg } with hfD
    have hd_pages : d.pages = t.pages.modify fD i := rfl
    have hfD_status : ∀ q : TranslatedPage, (fD q).status = PageStatus.completed ∨
        (fD q).status = PageStatus.error := by
      intro q
      rcases htr : tr i with msg | html <;> simp [hfD, htr]
    have hfD_term : ∀ q : TranslatedPage, (fD q).status.isTerminal = true := by
      intro q
      rcases hfD_status q with h | h <;> simp [h, PageStatus.isTerminal]
    have hd_i : d.pages[i]? = some (fD (fT p0)) := by
      rw [hd_pages, List.getElem?_modify, ht_i]
      simp
    have hd_ne : ∀ j : Nat, i ≠ j → d.pages[j]? = t.pages[j]? := by
      intro j hj
      rw [hd_pages, List.getElem?_modify]
      cases t.pages[j]? <;> simp [hj]
    have hd_len : d.pages.length = N := by
      rw [hd_pages, List.length_modify]
      exact ht_len
    have hd_count : terminalCount d.pages = i + 1 := by
      have h2 := terminalCount_modify fD t.pages i (fT p0) ht_i
      have hft : (fT p0).status.isTerminal = false := by simp [hfT, PageStatus.isTerminal]
      rw [hft, hfD_term (fT p0)] at h2
      rw [← hd_pages] at h2
      simp at h2
      omega
    have hd_cur : d.progress.current = i + 1 := rfl
    have hd_tot : d.progress.total = N := by
      have : d.progress.total = s.progress.total := rfl
      rw [this, htot]
    have hd_pend : ∀ (j : Nat) (p : TranslatedPage), i + 1 ≤ j → d.pages[j]? = some p →
        p.status = PageStatus.pending := by
      intro j p hj hjp
      rw [hd_ne j (by omega), ht_ne j (by omega)] at hjp
      exact hpend j p (by omega) hjp
    have hd_term : ∀ (j : Nat) (p : TranslatedPage), j < i + 1 → d.pages[j]? = some p →
        p.status = PageStatus.completed ∨ p.status = PageStatus.error := by
      intro j p hj hjp
      by_cases hji : j < i
      · rw [hd_ne j (by omega), ht_ne j (by omega)] at hjp
        exact hterm j p hji hjp
      · have : j = i := by omega
        subst this
        rw [hd_i] at hjp
        injection hjp with hjp
        subst hjp
        exact hfD_status (fT p0)
    obtain ⟨IH1, IH2, IH3, IH4, IH5, IH6⟩ :=
      ih (i + 1) d (by omega) hd_cur hd_tot hd_len hd_count hd_pend hd_term
    rw [hstep]
    refine ⟨?_, ?_, IH3, IH4, IH5, IH6⟩
    · intro x hx
      rcases List.mem_cons.mp hx with hx | hx
      · subst hx
        constructor
        · rw [ht_count]
          show t.progress.current = i
          rw [ht_prog, hcur]
        · show t.progress.total = N
          rw [ht_prog, htot]
      · rcases List.mem_cons.mp hx with hx | hx
        · subst hx
          exact ⟨by rw [hd_count, hd_cur], hd_tot⟩
        · exact IH1 x hx
    · rw [List.chain'_cons]
      constructor
      · show s.progress.current ≤ t.progress.current
        rw [ht_prog]
      · rw [List.chain'_cons]
        constructor
        · show t.progress.current ≤ d.progress.current
          rw [ht_prog, hcur, hd_cur]
          omega
        · exact IH2


lemma initialPages_length (n : Nat) : (initialPages n).length = n := by
  simp [initialPages]

lemma terminalCount_initialPages (n : Nat) : terminalCount (initialPages n) = 0 := by
  simp only [terminalCount, List.length_eq_zero]
  rw [List.filter_eq_nil_iff]
  intro p hp
  simp only [initialPages, List.mem_map] at hp
  obtain ⟨i, _, rfl⟩ := hp
  simp [PageStatus.isTerminal]

lemma initialPages_status (n j : Nat) (p : TranslatedPage)
    (h : (initialPages n)[j]? = some p) : p.status = PageStatus.pending := by
  simp only [initialPages, List.getElem?_map] at h
  rcases hr : (List.range n)[j]? with _ | i
  · rw [hr] at h; simp at h
  · rw [hr] at h
    simp only [Option.map_some'] at h
    injection h with h
    subst h
    rfl

/-- Claim C1: for a document that loads with `N` pages (any `N ≥ 0`)
the run processes every page sequentially even when adapter calls fail:
the terminal session has exactly `N` page results, each with terminal
status (`completed` or the source's `error`, the spec's `failed`),
`progress.current = N`, and app state `COMPLETED`, not `ERROR`. -/
theorem processPDF_processes_all_pages :
    ∀ (n : Nat) (renderImg : Nat → String) (tr : Nat → Except String String),
      (finalSession n renderImg tr).pages.length = n
      ∧ (∀ p ∈ (finalSession n renderImg tr).pages,
          p.status = PageStatus.completed ∨ p.status = PageStatus.error)
      ∧ (finalSession n renderImg tr).progress.current = n
      ∧ (finalSession n renderImg tr).progress.total = n
      ∧ (finalSession n renderImg tr).appState = DocAppState.completed := by
  intro n renderImg tr
  obtain ⟨_, _, h3, h4, h5, h6⟩ :=
    runPages_invariant renderImg tr n n 0 (sessionInit n) (by omega) rfl rfl
      (initialPages_length n) (terminalCount_initialPages n)
      (fun j p _ hp => initialPages_status n j p hp)
      (fun j p hj _ => absurd hj (by omega))
  refine ⟨h5, ?_, h3, h4, rfl⟩
  intro p hp
  rw [List.mem_iff_getElem?] at hp
  obtain ⟨j, hj⟩ := hp
  exact h6 j p hj

/-- Witness for `processPDF_processes_all_pages`: a 1-page document
whose only adapter call always fails still ends `COMPLETED` with
`progress.current = 1` and the page in a terminal status. -/
theorem processPDF_processes_all_pages_witness :
    (finalSession 1 (fun _ => "img") (fun _ => Except.error "boom")).progress.current = 1
  ∧ ((⟨1, "img", "", PageStatus.error, some "boom"⟩ : TranslatedPage).status = PageStatus.completed
     ∨ (⟨1, "img", "", PageStatus.error, some "boom"⟩ : TranslatedPage).status = PageStatus.error) :=
  ⟨(processPDF_processes_all_pages 1 (fun _ => "img") (fun _ => Except.error "boom")).2.2.1,
   (processPDF_processes_all_pages 1 (fun _ => "img") (fun _ => Except.error "boom")).2.1
     ⟨1, "img", "", PageStatus.error, some "boom"⟩ (by decide)⟩

/-- Claim C5: at every observation point of a run, `progress.current`
equals the number of page results whose status is neither `pending` nor
`translating`; `progress.current` never decreases between consecutive
observations; and `progress.total` equals the page count fixed at
session start, at every observation point. -/
theorem processPDF_progress_invariant :
    ∀ (n : Nat) (renderImg : Nat → String) (tr : Nat → Except String String),
      (∀ s ∈ runSnapshots n renderImg tr,
        s.progress.current = terminalCount s.pages ∧ s.progress.total = n)
      ∧ List.Chain' (fun a b => a.progress.current ≤ b.progress.current)
          (runSnapshots n renderImg tr) := by
  intro n renderImg tr
  obtain ⟨h1, h2, _, _, _, _⟩ :=
    runPages_invariant renderImg tr n n 0 (sessionInit n) (by omega) rfl rfl
      (initialPages_length n) (terminalCount_initialPages n)
      (fun j p _ hp => initialPages_status n j p hp)
      (fun j p hj _ => absurd hj (by omega))
  constructor
  · intro s hs
    rcases List.mem_cons.mp hs with hs | hs
    · subst hs
      exact ⟨by simp [sessionInit, terminalCount_initialPages], rfl⟩
    · exact h1 s hs
  · exact h2

/-- Witness for `processPDF_progress_invariant` at the first snapshot
of a concrete 1-page run. -/
theorem processPDF_progress_invariant_witness :
    (sessionInit 1).progress.current = terminalCount (sessionInit 1).pages
  ∧ (sessionInit 1).progress.total = 1 :=
  (processPDF_progress_invariant 1 (fun _ => "img") (fun _ => Except.error "boom")).1
    (sessionInit 1) (by decide)

lemma endsWithList_iff {l sfx : List Char} : endsWithList l sfx = true ↔ sfx <:+ l := by
  simp [endsWithList, List.isSuffixOf_iff_suffix]

lemma head?_dropWhile_ws {p : Char → Bool} {l : List Char} {c : Char}
    (h : (l.dropWhile p).head? = some c) : p c = false := by
  induction l with
  | nil => simp [List.dropWhile] at h
  | cons a t ih =>
    rw [List.dropWhile_cons] at h
    by_cases hp : p a
    · exact ih (by simpa [hp] using h)
    · simp [hp] at h
      subst h
      simpa using hp

lemma dropTrailingWs_isPre (l : List Char) : dropTrailingWs l <+: l := by
  obtain ⟨w, hw⟩ := List.dropWhile_suffix (l := l.reverse) isWs
  refine ⟨w.reverse, ?_⟩
  have := congrArg List.reverse hw
  simpa [dropTrailingWs, List.reverse_append] using this

lemma head?_of_isPre {p l : List Char} (h : p <+: l) {c : Char}
    (hc : p.head? = some c) : l.head? = some c := by
  obtain ⟨t, ht⟩ := h
  subst ht
  rw [List.head?_append, hc]
  rfl

lemma jsTrim_head_not_ws {l : List Char} {c : Char}
    (h : (jsTrim l).head? = some c) : isWs c = false := by
  have hpre : jsTrim l <+: dropLeadingWs l := dropTrailingWs_isPre (dropLeadingWs l)
  have := head?_of_isPre hpre h
  exact head?_dropWhile_ws this

lemma jsTrim_eq_self {x : List Char}
    (hh : ∀ c, x.head? = some c → isWs c = false)
    (hl : ∀ c, x.getLast? = some c → isWs c = false) : jsTrim x = x := by
  have h1 : dropLeadingWs x = x := by
    cases x with
    | nil => rfl
    | cons a t =>
      have := hh a rfl
      simp [dropLeadingWs, List.dropWhile_cons, this]
  have h2 : dropTrailingWs x = x := by
    unfold dropTrailingWs
    cases hx : x.reverse with
    | nil =>
      have hxx : x = [] := by simpa using congrArg List.reverse hx
      subst hxx
      rfl
    | cons a t =>
      have ha : x.getLast? = some a := by
        rw [← List.head?_reverse, hx]
        rfl
      have hna := hl a ha
      simp only [List.dropWhile_cons, hna, Bool.false_eq_true, if_false]
      have := congrArg List.reverse hx
      simpa using this.symm
  rw [jsTrim, h1, h2]

lemma resolve_suffix_completions (l : List Char) :
    chatCompletionsSeg <:+ resolveVisionEndpoint l := by
  simp only [resolveVisionEndpoint]
  by_cases h1 : endsWithList (if endsWithList (jsTrim l) ['/'] = true then (jsTrim l).dropLast
      else jsTrim l) chatCompletionsSeg = true
  · rw [if_pos h1]
    exact endsWithList_iff.mp h1
  · rw [if_neg h1]
    by_cases h2 : endsWithList (if endsWithList (jsTrim l) ['/'] = true then (jsTrim l).dropLast
        else jsTrim l) v1Seg = true
    · rw [if_pos h2]
      exact List.suffix_append _ _
    · rw [if_neg h2]
      rw [show v1ChatCompletionsSeg = v1Seg ++ chatCompletionsSeg from by decide,
        ← List.append_assoc]
      exact List.suffix_append _ _

lemma resolve_getLast (l : List Char) :
    (resolveVisionEndpoint l).getLast? = some 's' := by
  obtain ⟨pre, hpre⟩ := resolve_suffix_completions l
  rw [← hpre, List.getLast?_append]
  rfl

lemma append_head_not_ws (u X : List Char) (c : Char)
    (hu : ∀ d, u.head? = some d → isWs d = false)
    (hX : X.head? = some '/')
    (h : (u ++ X).head? = some c) : isWs c = false := by
  rw [List.head?_append] at h
  rcases hc : u.head? with _ | d
  · rw [hc] at h
    simp only [Option.none_or] at h
    rw [hX] at h
    injection h with h
    subst h
    rfl
  · rw [hc] at h
    have hdc : some d = some c := h
    injection hdc with hdc
    subst hdc
    exact hu d hc

lemma resolve_head_not_ws {l : List Char} {c : Char}
    (h : (resolveVisionEndpoint l).head? = some c) : isWs c = false := by
  have hu0 : ∀ d, ((if endsWithList (jsTrim l) ['/'] = true then (jsTrim l).dropLast
      else jsTrim l)).head? = some d → isWs d = false := by
    intro d hd
    split at hd
    · have hdl := List.dropLast_prefix (jsTrim l)
      exact jsTrim_head_not_ws (head?_of_isPre hdl hd)
    · exact jsTrim_head_not_ws hd
  simp only [resolveVisionEndpoint] at h
  generalize hg : (if endsWithList (jsTrim l) ['/'] = true then (jsTrim l).dropLast
      else jsTrim l) = u at hu0 h
  split at h
  · exact hu0 c h
  · split at h
    · exact append_head_not_ws u chatCompletionsSeg c hu0 rfl h
    · exact append_head_not_ws u v1ChatCompletionsSeg c hu0 rfl h

/-- Claim C4: vision-provider endpoint resolution is a total function
on strings, idempotent on every input, and maps the three sample inputs
(bare domain, versioned root, fully-qualified endpoint) to the same
fully-qualified endpoint. -/
theorem endpoint_resolution_idempotent_total :
    (∀ baseUrl : List Char,
      resolveVisionEndpoint (resolveVisionEndpoint baseUrl) = resolveVisionEndpoint baseUrl)
  ∧ resolveVisionEndpoint "https://api.example.com".toList =
      "https://api.example.com/v1/chat/completions".toList
  ∧ resolveVisionEndpoint "https://api.example.com/v1".toList =
      "https://api.example.com/v1/chat/completions".toList
  ∧ resolveVisionEndpoint "https://api.example.com/v1/chat/completions".toList =
      "https://api.example.com/v1/chat/completions".toList := by
  refine ⟨?_, by decide, by decide, by decide⟩
  intro l
  have htrim : jsTrim (resolveVisionEndpoint l) = resolveVisionEndpoint l := by
    apply jsTrim_eq_self
    · intro c hc
      exact resolve_head_not_ws hc
    · intro c hc
      rw [resolve_getLast l] at hc
      injection hc with hc
      subst hc
      rfl
  have hslash : endsWithList (resolveVisionEndpoint l) ['/'] = false := by
    by_contra hcon
    have hsfx : ['/'] <:+ resolveVisionEndpoint l := by
      apply endsWithList_iff.mp
      revert hcon
      cases endsWithList (resolveVisionEndpoint l) ['/'] <;> simp
    obtain ⟨pre, hpre⟩ := hsfx
    have hlast : (resolveVisionEndpoint l).getLast? = some '/' := by
      rw [← hpre]
      exact List.getLast?_concat pre
    rw [resolve_getLast l] at hlast
    injection hlast with hlast
    exact absurd hlast (by decide)
  have hends : endsWithList (resolveVisionEndpoint l) chatCompletionsSeg = true :=
    endsWithList_iff.mpr (resolve_suffix_completions l)
  conv_lhs => rw [resolveVisionEndpoint]
  rw [htrim, hslash]
  simp only [Bool.false_eq_true, if_false]
  rw [if_pos hends]

lemma char_toNat_inj {a b : Char} (h : a.toNat = b.toNat) : a = b :=
  Char.eq_of_val_eq (UInt32.ext h)

lemma ciEqChar_self (a : Char) : ciEqChar a a = true := by
  simp [ciEqChar]

lemma ciEqChar_backquote {b : Char} (h : ciEqChar '`' b = true) : b = '`' := by
  simp only [ciEqChar, beq_iff_eq] at h
  have h96 : lowerCode '`' = 96 := rfl
  rw [h96] at h
  unfold lowerCode at h
  split at h
  · rename_i hr
    simp only [Bool.and_eq_true, decide_eq_true_eq] at hr
    omega
  · have hb : b.toNat = 96 := by omega
    exact char_toNat_inj (by rw [hb]; rfl)

lemma ciIsPrefixOf_self_append (l r : List Char) : ciIsPrefixOf l (l ++ r) = true := by
  induction l with
  | nil => rfl
  | cons a as ih => simp [ciIsPrefixOf, ciEqChar_self, ih]

lemma ciIsPrefixOf_append_left (l1 l2 r : List Char) :
    ciIsPrefixOf (l1 ++ l2) (l1 ++ r) = ciIsPrefixOf l2 r := by
  induction l1 with
  | nil => rfl
  | cons a as ih => simp [ciIsPrefixOf, ciEqChar_self, ih]

lemma ciIsPrefixOf_append_bq (lit : List Char) :
    ∀ (x y : List Char), (∀ c ∈ lit, ciEqChar c '`' = false) →
      y.head? = some '`' → ciIsPrefixOf lit x = false →
      ciIsPrefixOf lit (x ++ y) = false := by
  induction lit with
  | nil => intro x y _ _ h; simp [ciIsPrefixOf] at h
  | cons a as ih =>
    intro x y hlit hy h
    cases x with
    | nil =>
      rcases y with _ | ⟨b, y2⟩
      · simp at hy
      · have hb : b = '`' := by
          simp only [List.head?_cons, Option.some.injEq] at hy
          exact hy
        subst hb
        simp [ciIsPrefixOf, hlit a (List.mem_cons_self a as)]
    | cons b xs =>
      simp only [List.cons_append, ciIsPrefixOf, Bool.and_eq_false_iff] at h ⊢
      rcases h with h | h
      · exact Or.inl h
      · by_cases hab : ciEqChar a b = true
        · exact Or.inr (ih xs y (fun c hc => hlit c (List.mem_cons_of_mem a hc)) hy h)
        · exact Or.inl (by revert hab; cases ciEqChar a b <;> simp)

lemma dropWhile_ws_append_all (w x : List Char) (hw : wsOnly w = true) :
    (w ++ x).dropWhile isWs = x.dropWhile isWs := by
  induction w with
  | nil => rfl
  | cons a t ih =>
    simp only [wsOnly, List.all_cons, Bool.and_eq_true] at hw
    simp only [List.cons_append, List.dropWhile_cons, hw.1, if_true]
    exact ih (by simp [wsOnly, hw.2])

lemma dropWhile_append_keep (p : Char → Bool) (xs ys : List Char)
    (h : ys.dropWhile p = ys) :
    (xs ++ ys).dropWhile p = xs.dropWhile p ++ ys := by
  rw [List.dropWhile_append]
  split
  · rename_i he
    rw [List.isEmpty_iff] at he
    rw [he, h]
    rfl
  · rfl

lemma dropWhile_fence_tail (w2 : List Char) :
    (fenceLit ++ w2).dropWhile isWs = fenceLit ++ w2 := by
  simp [fenceLit, List.dropWhile_cons, isWs]

lemma dropLeadingWs_idem (l : List Char) :
    (l.dropWhile isWs).dropWhile isWs = l.dropWhile isWs := by
  rcases hc : l.dropWhile isWs with _ | ⟨b, t⟩
  · rfl
  · have hb : isWs b = false := head?_dropWhile_ws (by rw [hc]; rfl)
    rw [List.dropWhile_cons, hb]
    simp

lemma jsTrim_dropLeading (body : List Char) :
    jsTrim (body.dropWhile isWs) = jsTrim body := by
  unfold jsTrim dropLeadingWs
  rw [dropLeadingWs_idem]

lemma bq_mem_drop_fence (k : Nat) (hk : k ≤ 2) (w : List Char) :
    '`' ∈ (fenceLit ++ w).drop k := by
  interval_cases k <;> simp [fenceLit]

lemma stripSuffixFence_append (w : List Char) (hw : wsOnly w = true) :
    ∀ pre : List Char, stripSuffixFence (pre ++ fenceLit ++ w) = pre := by
  intro pre
  induction pre with
  | nil =>
    show stripSuffixFence (fenceLit ++ w) = []
    rw [show fenceLit ++ w = '`' :: '`' :: '`' :: w from rfl]
    rw [stripSuffixFence]
    have h1 : fenceLit.isPrefixOf ('`' :: '`' :: '`' :: w) = true := by
      simp [fenceLit, List.isPrefixOf]
    have h2 : wsOnly (('`' :: '`' :: '`' :: w).drop 3) = true := by
      simpa using hw
    rw [h1, h2]
    rfl
  | cons c pre2 ih =>
    rw [show c :: pre2 ++ fenceLit ++ w = c :: (pre2 ++ fenceLit ++ w) from by simp]
    rw [stripSuffixFence]
    have hcond : (fenceLit.isPrefixOf (c :: (pre2 ++ fenceLit ++ w)) &&
        wsOnly ((c :: (pre2 ++ fenceLit ++ w)).drop 3)) = false := by
      rw [Bool.and_eq_false_iff]
      by_cases hws : wsOnly ((c :: (pre2 ++ fenceLit ++ w)).drop 3) = true
      · exfalso
        have hmem : '`' ∈ (c :: (pre2 ++ fenceLit ++ w)).drop 3 := by
          show '`' ∈ (pre2 ++ fenceLit ++ w).drop 2
          rw [List.append_assoc, List.drop_append_eq_append_drop]
          refine List.mem_append.mpr (Or.inr ?_)
          exact bq_mem_drop_fence _ (by omega) w
        have := (List.all_eq_true.mp hws) '`' hmem
        simp [isWs] at this
      · exact Or.inr (by revert hws; cases wsOnly ((c :: (pre2 ++ fenceLit ++ w)).drop 3) <;> simp)
    rw [hcond]
    simp only [Bool.false_eq_true, if_false]
    rw [ih]



/-- Claim C8: a vision response wrapped in a markdown code fence — a
leading ` ```html ` or ` ``` ` marker and a trailing ` ``` ` marker,
with any surrounding whitespace — is stripped to the bare HTML body
(trimmed), for every backtick-free body (and, for the plain ` ``` `
opener, a fence content not itself starting with the letters "html"). -/
theorem vision_fence_unwrap :
    (∀ w1 body w2 : List Char, wsOnly w1 = true → wsOnly w2 = true →
      '`' ∉ body →
      stripCodeFences (fenceHtmlLit ++ w1 ++ body ++ fenceLit ++ w2) = jsTrim body)
  ∧ (∀ w1 body w2 : List Char, wsOnly w1 = true → wsOnly w2 = true →
      '`' ∉ body → ciIsPrefixOf htmlLit (w1 ++ body) = false →
      stripCodeFences (fenceLit ++ w1 ++ body ++ fenceLit ++ w2) = jsTrim body) := by
  constructor
  · intro w1 body w2 hw1 hw2 hb
    unfold stripCodeFences
    have e1 : stripPrefixFenceWith fenceHtmlLit (fenceHtmlLit ++ w1 ++ body ++ fenceLit ++ w2)
        = body.dropWhile isWs ++ (fenceLit ++ w2) := by
      rw [show fenceHtmlLit ++ w1 ++ body ++ fenceLit ++ w2
          = fenceHtmlLit ++ (w1 ++ (body ++ (fenceLit ++ w2))) from by simp]
      unfold stripPrefixFenceWith
      rw [ciIsPrefixOf_self_append]
      simp only [if_true]
      rw [List.drop_left]
      rw [dropWhile_ws_append_all _ _ hw1]
      exact dropWhile_append_keep isWs body (fenceLit ++ w2) (dropWhile_fence_tail w2)
    rw [e1]
    rcases hbody : body.dropWhile isWs with _ | ⟨b, t⟩
    · have e2 : stripPrefixFenceWith fenceLit (([] : List Char) ++ (fenceLit ++ w2)) = [] := by
        simp only [List.nil_append]
        unfold stripPrefixFenceWith
        rw [ciIsPrefixOf_self_append]
        simp only [if_true]
        rw [List.drop_left]
        rw [List.dropWhile_eq_nil_iff.mpr (fun x hx => (List.all_eq_true.mp hw2) x hx)]
      rw [e2]
      rw [show stripSuffixFence ([] : List Char) = [] from rfl]
      rw [show jsTrim ([] : List Char) = [] from rfl]
      exact (jsTrim_eq_nil_of_all_ws (List.dropWhile_eq_nil_iff.mp hbody)).symm
    · have hbmem : b ∈ body := by
        have hmem : b ∈ body.dropWhile isWs := by
          rw [hbody]
          exact List.mem_cons_self b t
        exact (List.dropWhile_sublist isWs).mem hmem
      have hbne : b ≠ '`' := fun hEq => hb (hEq ▸ hbmem)
      have hciq : ciEqChar '`' b = false := by
        by_cases hq : ciEqChar '`' b = true
        · exact absurd (ciEqChar_backquote hq) hbne
        · revert hq
          cases ciEqChar '`' b <;> simp
      have e2 : stripPrefixFenceWith fenceLit ((b :: t) ++ (fenceLit ++ w2))
          = (b :: t) ++ (fenceLit ++ w2) := by
        unfold stripPrefixFenceWith
        have hci : ciIsPrefixOf fenceLit ((b :: t) ++ (fenceLit ++ w2)) = false := by
          show (ciEqChar '`' b && ciIsPrefixOf ['`', '`'] (t ++ (fenceLit ++ w2))) = false
          rw [hciq]
          rfl
        rw [hci]
        simp
      rw [e2]
      have e3 : stripSuffixFence ((b :: t) ++ (fenceLit ++ w2)) = b :: t := by
        have h4 := stripSuffixFence_append w2 hw2 (b :: t)
        rw [show (b :: t) ++ fenceLit ++ w2 = (b :: t) ++ (fenceLit ++ w2) from by simp] at h4
        exact h4
      rw [e3, ← hbody, jsTrim_dropLeading]
  · intro w1 body w2 hw1 hw2 hb hnothtml
    unfold stripCodeFences
    have e1 : stripPrefixFenceWith fenceHtmlLit (fenceLit ++ w1 ++ body ++ fenceLit ++ w2)
        = fenceLit ++ w1 ++ body ++ fenceLit ++ w2 := by
      unfold stripPrefixFenceWith
      have hci : ciIsPrefixOf fenceHtmlLit (fenceLit ++ w1 ++ body ++ fenceLit ++ w2) = false := by
        rw [show fenceHtmlLit = fenceLit ++ htmlLit from by decide]
        rw [show fenceLit ++ w1 ++ body ++ fenceLit ++ w2
            = fenceLit ++ ((w1 ++ body) ++ (fenceLit ++ w2)) from by simp]
        rw [ciIsPrefixOf_append_left]
        exact ciIsPrefixOf_append_bq htmlLit (w1 ++ body) (fenceLit ++ w2)
          (by decide) rfl hnothtml
      rw [hci]
      simp
    rw [e1]
    have e2 : stripPrefixFenceWith fenceLit (fenceLit ++ w1 ++ body ++ fenceLit ++ w2)
        = body.dropWhile isWs ++ (fenceLit ++ w2) := by
      rw [show fenceLit ++ w1 ++ body ++ fenceLit ++ w2
          = fenceLit ++ (w1 ++ (body ++ (fenceLit ++ w2))) from by simp]
      unfold stripPrefixFenceWith
      rw [ciIsPrefixOf_self_append]
      simp only [if_true]
      rw [List.drop_left]
      rw [dropWhile_ws_append_all _ _ hw1]
      exact dropWhile_append_keep isWs body (fenceLit ++ w2) (dropWhile_fence_tail w2)
    rw [e2]
    have e3 : stripSuffixFence (body.dropWhile isWs ++ (fenceLit ++ w2))
        = body.dropWhile isWs := by
      have h4 := stripSuffixFence_append w2 hw2 (body.dropWhile isWs)
      rw [show body.dropWhile isWs ++ fenceLit ++ w2
          = body.dropWhile isWs ++ (fenceLit ++ w2) from by simp] at h4
      exact h4
    rw [e3, jsTrim_dropLeading]

/-- Witness for `vision_fence_unwrap` on two concrete fenced responses. -/
theorem vision_fence_unwrap_witness :
    stripCodeFences (fenceHtmlLit ++ "\n".toList ++ "<p>hi</p>".toList ++ fenceLit ++ " ".toList)
      = jsTrim "<p>hi</p>".toList
  ∧ stripCodeFences (fenceLit ++ " ".toList ++ "<b>x</b>".toList ++ fenceLit ++ [])
      = jsTrim "<b>x</b>".toList :=
  ⟨vision_fence_unwrap.1 "\n".toList "<p>hi</p>".toList " ".toList
    (by decide) (by decide) (by decide),
   vision_fence_unwrap.2 " ".toList "<b>x</b>".toList []
    (by decide) (by decide) (by decide) (by decide)⟩

lemma tryTags_pos {tags : List (List Char)} {rest cap : List Char} {n : Nat}
    (h : tryTags tags rest = some (cap, n)) : 4 ≤ n := by
  induction tags with
  | nil => simp [tryTags] at h
  | cons t ts ih =>
    rw [tryTags] at h
    split at h
    · injection h with h
      cases h  -- hmm h : (rest.take t.length, t.length + 4) = (cap, n)
      omega
    · exact ih h

lemma matchEscAt_pos {pre l cap : List Char} {n : Nat}
    (h : matchEscAt pre l = some (cap, n)) : 4 ≤ n := by
  rw [matchEscAt] at h
  split at h
  · rcases htt : tryTags allowedTags (l.drop pre.length) with _ | ⟨cap1, n1⟩
    · rw [htt] at h
      simp at h
    · rw [htt] at h
      simp only [Option.some.injEq, Prod.mk.injEq] at h
      have := tryTags_pos htt
      omega
  · simp at h

lemma unescOpenF_cons_match (fuel : Nat) (l cap : List Char) (n : Nat)
    (hm : matchEscAt ltLit l = some (cap, n)) (hl : l ≠ []) :
    unescOpenF (fuel + 1) l = '<' :: (cap ++ ('>' :: unescOpenF fuel (l.drop n))) := by
  cases l with
  | nil => exact absurd rfl hl
  | cons c rest => simp [unescOpenF, hm]

lemma unescCloseF_cons_match (fuel : Nat) (l cap : List Char) (n : Nat)
    (hm : matchEscAt ltSlashLit l = some (cap, n)) (hl : l ≠ []) :
    unescCloseF (fuel + 1) l = '<' :: '/' :: (cap ++ ('>' :: unescCloseF fuel (l.drop n))) := by
  cases l with
  | nil => exact absurd rfl hl
  | cons c rest => simp [unescCloseF, hm]

lemma unescOpenF_congr : ∀ f1 f2 (l : List Char), l.length ≤ f1 → l.length ≤ f2 →
    unescOpenF f1 l = unescOpenF f2 l := by
  intro f1
  induction f1 with
  | zero =>
    intro f2 l h1 _
    have : l = [] := List.length_eq_zero.mp (by omega)
    subst this
    cases f2 <;> rfl
  | succ f ih =>
    intro f2 l h1 h2
    cases l with
    | nil => cases f2 <;> rfl
    | cons c rest =>
      cases f2 with
      | zero => simp at h2
      | succ f2a =>
        have h1a : rest.length + 1 ≤ f + 1 := by simpa using h1
        have h2a : rest.length + 1 ≤ f2a + 1 := by simpa using h2
        rcases hm : matchEscAt ltLit (c :: rest) with _ | ⟨cap, n⟩
        · simp only [unescOpenF, hm]
          rw [ih f2a rest (by omega) (by omega)]
        · have hn := matchEscAt_pos hm
          simp only [unescOpenF, hm]
          rw [ih f2a ((c :: rest).drop n)
            (by simp only [List.length_drop, List.length_cons]; omega)
            (by simp only [List.length_drop, List.length_cons]; omega)]

lemma unescCloseF_congr : ∀ f1 f2 (l : List Char), l.length ≤ f1 → l.length ≤ f2 →
    unescCloseF f1 l = unescCloseF f2 l := by
  intro f1
  induction f1 with
  | zero =>
    intro f2 l h1 _
    have : l = [] := List.length_eq_zero.mp (by omega)
    subst this
    cases f2 <;> rfl
  | succ f ih =>
    intro f2 l h1 h2
    cases l with
    | nil => cases f2 <;> rfl
    | cons c rest =>
      cases f2 with
      | zero => simp at h2
      | succ f2a =>
        have h1a : rest.length + 1 ≤ f + 1 := by simpa using h1
        have h2a : rest.length + 1 ≤ f2a + 1 := by simpa using h2
        rcases hm : matchEscAt ltSlashLit (c :: rest) with _ | ⟨cap, n⟩
        · simp only [unescCloseF, hm]
          rw [ih f2a rest (by omega) (by omega)]
        · have hn := matchEscAt_pos hm
          simp only [unescCloseF, hm]
          rw [ih f2a ((c :: rest).drop n)
            (by simp only [List.length_drop, List.length_cons]; omega)
            (by simp only [List.length_drop, List.length_cons]; omega)]

lemma unescOpen_step (l cap rest : List Char) (k : Nat)
    (hm : matchEscAt ltLit l = some (cap, k))
    (hdrop : l.drop k = rest)
    (hlen : l.length = rest.length + k)
    (hl : l ≠ []) :
    unescOpen l = '<' :: (cap ++ ('>' :: unescOpen rest)) := by
  have hk : 4 ≤ k := matchEscAt_pos hm
  show unescOpenF l.length l = _
  rw [hlen, show rest.length + k = (rest.length + (k - 1)) + 1 from by omega]
  rw [unescOpenF_cons_match _ _ _ _ hm hl, hdrop]
  rw [unescOpenF_congr (rest.length + (k - 1)) rest.length rest (by omega) (Nat.le_refl _)]
  rfl

lemma unescClose_step (l cap rest : List Char) (k : Nat)
    (hm : matchEscAt ltSlashLit l = some (cap, k))
    (hdrop : l.drop k = rest)
    (hlen : l.length = rest.length + k)
    (hl : l ≠ []) :
    unescClose l = '<' :: '/' :: (cap ++ ('>' :: unescClose rest)) := by
  have hk : 4 ≤ k := matchEscAt_pos hm
  show unescCloseF l.length l = _
  rw [hlen, show rest.length + k = (rest.length + (k - 1)) + 1 from by omega]
  rw [unescCloseF_cons_match _ _ _ _ hm hl, hdrop]
  rw [unescCloseF_congr (rest.length + (k - 1)) rest.length rest (by omega) (Nat.le_refl _)]
  rfl

lemma unescOpenF_no_match : ∀ (fuel : Nat) (l : List Char),
    hasEscAt ltLit l = false → unescOpenF fuel l = l := by
  intro fuel
  induction fuel with
  | zero => intro l _; rfl
  | succ f ih =>
    intro l h
    cases l with
    | nil => rfl
    | cons c rest =>
      rw [hasEscAt, Bool.or_eq_false_iff] at h
      rcases hm : matchEscAt ltLit (c :: rest) with _ | pr
      · simp only [unescOpenF, hm]
        rw [ih rest h.2]
      · rw [hm] at h
        simp at h
  
lemma unescCloseF_no_match : ∀ (fuel : Nat) (l : List Char),
    hasEscAt ltSlashLit l = false → unescCloseF fuel l = l := by
  intro fuel
  induction fuel with
  | zero => intro l _; rfl
  | succ f ih =>
    intro l h
    cases l with
    | nil => rfl
    | cons c rest =>
      rw [hasEscAt, Bool.or_eq_false_iff] at h
      rcases hm : matchEscAt ltSlashLit (c :: rest) with _ | pr
      · simp only [unescCloseF, hm]
        rw [ih rest h.2]
      · rw [hm] at h
        simp at h


/-- Claim C9: the vision normalization converts every escaped opening
or closing occurrence of exactly the allowlisted tags sup, sub, b, i,
strong, em into literal tags (wherever it occurs in the scan), and
converts nothing in a string with no allowlisted escaped occurrence —
e.g. `&lt;sup&gt;17&lt;/sup&gt;` becomes `<sup>17</sup>` while
`&lt;div&gt;17&lt;/div&gt;` is left unchanged. -/
theorem vision_unescape_allowlist :
    (∀ t ∈ allowedTags, ∀ rest : List Char,
      unescOpen (escOpen t ++ rest) = '<' :: (t ++ ('>' :: unescOpen rest)))
  ∧ (∀ t ∈ allowedTags, ∀ rest : List Char,
      unescClose (escClose t ++ rest) = '<' :: '/' :: (t ++ ('>' :: unescClose rest)))
  ∧ (∀ l : List Char, hasEscAt ltLit l = false → unescOpen l = l)
  ∧ (∀ l : List Char, hasEscAt ltSlashLit l = false → unescClose l = l)
  ∧ unescapeInlineTags "&lt;sup&gt;17&lt;/sup&gt;".toList = "<sup>17</sup>".toList
  ∧ unescapeInlineTags "&lt;div&gt;17&lt;/div&gt;".toList = "&lt;div&gt;17&lt;/div&gt;".toList := by
  refine ⟨?_, ?_, ?_, ?_, by decide, by decide⟩
  · intro t ht rest
    simp only [allowedTags] at ht
    fin_cases ht <;>
      exact unescOpen_step _ _ rest _ rfl rfl
        (by simp [escOpen, ltLit, gtLit]; try omega) (by simp [escOpen, ltLit])
  · intro t ht rest
    simp only [allowedTags] at ht
    fin_cases ht <;>
      exact unescClose_step _ _ rest _ rfl rfl
        (by simp [escClose, ltSlashLit, gtLit]; try omega) (by simp [escClose, ltSlashLit])
  · intro l h
    exact unescOpenF_no_match _ l h
  · intro l h
    exact unescCloseF_no_match _ l h

/-- Witness for `vision_unescape_allowlist` at concrete tags and
strings. -/
theorem vision_unescape_allowlist_witness :
    unescOpen (escOpen "sup".toList ++ "17".toList) =
      '<' :: ("sup".toList ++ ('>' :: unescOpen "17".toList))
  ∧ unescClose (escClose "em".toList ++ []) =
      '<' :: '/' :: ("em".toList ++ ('>' :: unescClose []))
  ∧ unescOpen "&lt;div&gt;".toList = "&lt;div&gt;".toList :=
  ⟨vision_unescape_allowlist.1 "sup".toList (by decide) "17".toList,
   vision_unescape_allowlist.2.1 "em".toList (by decide) [],
   vision_unescape_allowlist.2.2.1 "&lt;div&gt;".toList (by decide)⟩

end PdfPipeline
